import Mathlib

/-!
Verification development for the Silicon-Wafer-Counter repository.

The core under verification is `src/core/wafer_counter.py`: a single-pass
pipeline that turns a decoded raster image into a wafer count.  The stages
are embedded shallowly below, in the order of the source:

* grayscale conversion, CLAHE contrast enhancement and a 3x3 Gaussian blur
  (`cv2.cvtColor`, `cv2.createCLAHE`, `cv2.GaussianBlur`);
* a per-column background mask from mean column intensity with a
  morphological opening (`np.mean`, comparison with `bg_thresh`,
  `cv2.morphologyEx` with a 1x5 kernel);
* an absolute Sobel-X gradient restricted to a central horizontal band and
  averaged per column (`cv2.Sobel`, slicing, `np.mean`);
* masking and min-max normalisation of the profile to `[0,255]` followed by
  a `uint8` cast;
* an FFT-based period estimate (`np.fft.fft`, `np.fft.fftfreq`) feeding the
  `min_distance` parameter;
* `scipy.signal.find_peaks` with `distance=min_distance, prominence=10`;
* annotation of a copy of the input image.

Machine floats are embedded as exact rationals / reals; where a float
comparison decides a discrete outcome (the spectral cutoff of line 90) the
IEEE-754 binary64 rounding itself is embedded exactly.  Machine integers
are `Nat` with explicit wrap-around where the code can overflow.  External
collaborators whose internals are out of scope (the image decoder, CLAHE,
`cv2.putText`) are parameters of the pipeline; everything else is a concrete
executable definition translated from the source of the repository or, for
library calls, from the library routine the source invokes.
-/

namespace WaferCounterModel

/-! ### Model of `scipy.signal.find_peaks`

The source calls `find_peaks(profile, distance=min_distance, prominence=10)`
on a `uint8` profile, so signals are `List ℕ` here.  The model follows the
scipy implementation (`scipy/signal/_peak_finding_utils.pyx`): first all
local maxima (plateau midpoints) are collected by `_local_maxima_1d`, then
peaks closer than `distance` are pruned in decreasing order of height by
`_select_by_peak_distance`, and finally `_peak_prominences` computes each
survivor's prominence against the full signal and peaks with prominence
below the threshold are dropped.
-/

/-- Index of the right edge of the plateau of equal samples that starts at
index `l`: the largest `r ≥ l` such that `x` is constant on `[l, r]`.
This mirrors the inner `while i_ahead < i_max and x[i_ahead] == x[i]` scan
of scipy's `_local_maxima_1d` (the scan is cut off at `i_max = n - 1`, but
a plateau reaching `n - 1` never yields a peak in either formulation
because no strictly smaller sample follows it). -/
def plateau_right (x : List ℕ) (l : ℕ) : ℕ :=
  l + ((x.drop (l + 1)).takeWhile (fun v => v == x.getD l 0)).length

/-- Model of scipy `_local_maxima_1d`: midpoints `(l + r) / 2` of maximal
plateaus `[l, r]` with `1 ≤ l`, `r + 1 ≤ n - 1`, a strict rise into `l` and
a strict drop after `r`.  The scan of the scipy loop visits exactly the
plateau starts `l` with `x[l-1] < x[l]`, so the `filterMap` over all indices
is the same function. -/
def local_maxima (x : List ℕ) : List ℕ :=
  (List.range x.length).filterMap fun l =>
    if 1 ≤ l ∧ x.getD (l - 1) 0 < x.getD l 0 then
      if plateau_right x l + 1 < x.length ∧
          x.getD (plateau_right x l + 1) 0 < x.getD l 0 then
        some ((l + plateau_right x l) / 2)
      else none
    else none

/-- Priority comparison realising ONE admissible processing order of
`_select_by_peak_distance`: the scipy loop walks `np.argsort(priority)`
from the back, so candidates are processed in decreasing height.  numpy's
default argsort (introsort) promises nothing about the order among equal
heights; it agrees with this comparison — later (larger) column first —
exactly where it degenerates to its stable insertion sort, i.e. below 16
candidates.  The pruning pass is therefore also proved against every
admissible order (`height_order` below); `prio_ge` pins down the
executable instance `find_peaks`.  `prio_ge x a b` says `a` is processed
no later than `b`. -/
def prio_ge (x : List ℕ) (a b : ℕ) : Bool :=
  decide (x.getD b 0 < x.getD a 0 ∨ (x.getD a 0 = x.getD b 0 ∧ b ≤ a))

/-- Candidate columns in processing order of the distance-pruning loop. -/
def priority_order (x : List ℕ) (cands : List ℕ) : List ℕ :=
  cands.mergeSort (prio_ge x)

/-- An admissible processing order of the pruning loop: the reversed
`np.argsort(priority)` is SOME permutation of the candidate columns along
which heights are non-increasing — which permutation is unspecified,
because the default introsort makes no stability promise among equal
priorities. -/
def height_order (x : List ℕ) (cands ord : List ℕ) : Prop :=
  ord.Perm cands ∧ List.Pairwise (fun a b => x.getD b 0 ≤ x.getD a 0) ord

/-- One removal sweep of `_select_by_peak_distance`: after the candidate at
column `c` is kept, every other candidate strictly closer than `d` to `c`
is discarded. -/
def prune_near (d c : ℕ) (keep : List ℕ) : List ℕ :=
  keep.filter fun k => k == c || decide (d ≤ Nat.dist c k)

/-- The pruning loop of `_select_by_peak_distance`: candidates are visited
in priority order; a candidate still kept when visited evicts all other
candidates within distance `d` of it; a candidate already evicted is
skipped (`if keep[j] == 0: continue`). -/
def select_loop (d : ℕ) : List ℕ → List ℕ → List ℕ
  | [], keep => keep
  | c :: rest, keep =>
    if c ∈ keep then select_loop d rest (prune_near d c keep)
    else select_loop d rest keep

/-- scipy `_select_by_peak_distance` run along an arbitrary admissible
processing order `ord`; the surviving candidates are returned in their
original ascending order. -/
def select_by_peak_distance_ord (cands : List ℕ) (d : ℕ) (ord : List ℕ) :
    List ℕ :=
  let keep := select_loop d ord cands
  cands.filter (fun c => decide (c ∈ keep))

/-- Model of scipy `_select_by_peak_distance` (candidates `cands` are the
sorted local-maxima columns of `x`): the pruning pass along the
`prio_ge` instance of the admissible orders. -/
def select_by_peak_distance (x : List ℕ) (cands : List ℕ) (d : ℕ) : List ℕ :=
  select_by_peak_distance_ord cands d (priority_order x cands)

/-- Maximal run of samples `≤ x[p]` ending at `p` (scanned right-to-left),
as visited by the left base scan of scipy `_peak_prominences` with
`wlen = -1`. -/
def left_stretch (x : List ℕ) (p : ℕ) : List ℕ :=
  ((x.take (p + 1)).reverse).takeWhile (fun v => decide (v ≤ x.getD p 0))

/-- Maximal run of samples `≤ x[p]` starting at `p`, as visited by the
right base scan of scipy `_peak_prominences`. -/
def right_stretch (x : List ℕ) (p : ℕ) : List ℕ :=
  (x.drop p).takeWhile (fun v => decide (v ≤ x.getD p 0))

/-- Model of scipy `_peak_prominences` at one peak: the peak height minus
the larger of the two base minima (the scans stop at the signal border or
at the first sample exceeding the peak height). -/
def prominence_at (x : List ℕ) (p : ℕ) : ℕ :=
  let xp := x.getD p 0
  xp - Nat.max ((left_stretch x p).foldl Nat.min xp)
        ((right_stretch x p).foldl Nat.min xp)

/-- Model of `scipy.signal.find_peaks(x, distance=d, prominence=prom)`:
local maxima, then distance pruning, then the prominence filter
(`keep = pmin <= prominences` with `pmin = prom`), in the order of the
scipy source. -/
def find_peaks (x : List ℕ) (d : ℕ) (prom : ℕ) : List ℕ :=
  (select_by_peak_distance x (local_maxima x) d).filter
    (fun p => decide (prom ≤ prominence_at x p))

/-- `find_peaks` with the pruning pass run along an arbitrary admissible
candidate order (the program's behaviour for whatever tie order
`np.argsort` emits). -/
def find_peaks_ord (x : List ℕ) (d prom : ℕ) (ord : List ℕ) : List ℕ :=
  (select_by_peak_distance_ord (local_maxima x) d ord).filter
    (fun p => decide (prom ≤ prominence_at x p))

/-! ### Raster images and the external collaborators -/

/-- A decoded colour raster as handed over by `cv2.imdecode` on success:
positive dimensions and a BGR pixel map (row, column).  A successful decode
never yields an empty raster. -/
structure CImg where
  h : ℕ
  w : ℕ
  hpos : 0 < h
  wpos : 0 < w
  pix : ℕ → ℕ → ℕ × ℕ × ℕ

/-- External collaborators of the core, kept abstract: the byte-level image
decoder behind `np.fromfile` / `cv2.imdecode` (inputs are opaque handles),
the CLAHE contrast enhancer `cv2.createCLAHE(...).apply` (a shape-preserving
transform of the grayscale pixel map), and the glyph raster of
`cv2.putText` (which receives the image being annotated and the count). -/
structure Ext where
  decode : ℕ → Option CImg
  clahe : (ℕ → ℕ → ℕ) → (ℕ → ℕ → ℕ)
  putText : (ℕ → ℕ → ℕ × ℕ × ℕ) → ℕ → (ℕ → ℕ → ℕ × ℕ × ℕ)

/-- The error of `raise ValueError(f"Could not load image at ...")`, named
after the spec's taxonomy. -/
inductive ProcessError where
  | imageDecodeError
deriving DecidableEq

/-- Fixed-point BGR-to-gray conversion of `cv2.cvtColor(_, COLOR_BGR2GRAY)`:
`(4899 R + 9617 G + 1868 B + 2^13) >> 14`. -/
def bgr2gray : ℕ × ℕ × ℕ → ℕ :=
  fun p => (1868 * p.1 + 9617 * p.2.1 + 4899 * p.2.2 + 8192) / 16384

/-- Grayscale view of the decoded image (`gray` in the source). -/
def gray (img : CImg) : ℕ → ℕ → ℕ :=
  fun y x => bgr2gray (img.pix y x)

/-- Index reflection of OpenCV `BORDER_REFLECT_101` (the default border of
`GaussianBlur` and `Sobel`) for overhangs of at most `n - 1` pixels, with
the OpenCV special case for a one-pixel extent. -/
def reflect101 (n : ℕ) (i : ℤ) : ℕ :=
  if n = 1 then 0
  else if i < 0 then (-i).toNat
  else if i < n then i.toNat
  else (2 * (n - 1) - i).toNat

/-- Model of `cv2.GaussianBlur(enhanced, (3, 3), 0)` on `uint8` data: the
separable kernel `[1,2,1]/4` in both directions, evaluated with OpenCV's
fixed-point rounding (add half, shift), `BORDER_REFLECT_101` at the edges. -/
def blur3 (h w : ℕ) (f : ℕ → ℕ → ℕ) : ℕ → ℕ → ℕ := fun y x =>
  let ry := fun d : ℤ => reflect101 h ((y : ℤ) + d)
  let rx := fun d : ℤ => reflect101 w ((x : ℤ) + d)
  (f (ry (-1)) (rx (-1)) + 2 * f (ry (-1)) (rx 0) + f (ry (-1)) (rx 1)
    + 2 * f (ry 0) (rx (-1)) + 4 * f (ry 0) (rx 0) + 2 * f (ry 0) (rx 1)
    + f (ry 1) (rx (-1)) + 2 * f (ry 1) (rx 0) + f (ry 1) (rx 1) + 8) / 16

/-- Model of `np.abs(cv2.Sobel(blurred, CV_64F, 1, 0, ksize=3))` at one
pixel: absolute value of the 3x3 x-derivative kernel
`[[-1,0,1],[-2,0,2],[-1,0,1]]`, `BORDER_REFLECT_101` at the edges; `CV_64F`
on `uint8` inputs is exact, so the value is an integer. -/
def sobel_x_abs (h w : ℕ) (f : ℕ → ℕ → ℕ) : ℕ → ℕ → ℕ := fun y x =>
  let ry := fun d : ℤ => reflect101 h ((y : ℤ) + d)
  let rx := fun d : ℤ => reflect101 w ((x : ℤ) + d)
  (-(f (ry (-1)) (rx (-1)) : ℤ) + (f (ry (-1)) (rx 1) : ℤ)
    - 2 * (f (ry 0) (rx (-1)) : ℤ) + 2 * (f (ry 0) (rx 1) : ℤ)
    - (f (ry 1) (rx (-1)) : ℤ) + (f (ry 1) (rx 1) : ℤ)).natAbs

/-! ### Background mask (`intensity_profile`, `bg_thresh`, opening) -/

/-- Mean intensity of column `i` of the grayscale image
(`np.mean(gray, axis=0)`). -/
def intensity_profile (img : CImg) (i : ℕ) : ℚ :=
  (((List.range img.h).map (fun y => (gray img y i : ℚ))).sum) / img.h

/-- The adaptive threshold `max(40, np.mean(intensity_profile) * 0.4)`. -/
def bg_thresh (img : CImg) : ℚ :=
  max 40 ((((List.range img.w).map (intensity_profile img)).sum / img.w) * (2 / 5))

/-- Raw per-column mask `(intensity_profile > bg_thresh).astype(np.uint8)`. -/
def mask_raw (img : CImg) (i : ℕ) : ℕ :=
  if bg_thresh img < intensity_profile img i then 1 else 0

/-- Window of column indices `[i-2, i+2] ∩ [0, w)` covered by the centred
1x5 structuring element of the morphological opening. -/
def mask_window (w i : ℕ) : List ℕ :=
  List.range' (i - 2) (min (i + 3) w - (i - 2))

/-- Erosion half of `cv2.morphologyEx(_, MORPH_OPEN, np.ones((1, 5)))`; the
initial accumulator `1` models OpenCV's `+inf` constant border, which never
wins a minimum. -/
def mask_eroded (img : CImg) (i : ℕ) : ℕ :=
  ((mask_window img.w i).map (mask_raw img)).foldl Nat.min 1

/-- Dilation half of the opening; the initial accumulator `0` models
OpenCV's `-inf` constant border, which never wins a maximum. -/
def background_mask (img : CImg) (i : ℕ) : ℕ :=
  ((mask_window img.w i).map (mask_eroded img)).foldl Nat.max 0

/-! ### Gradient projection and profile normalisation -/

/-- The contrast-enhanced grayscale buffer (`clahe.apply(gray)`). -/
def enhanced (ext : Ext) (img : CImg) : ℕ → ℕ → ℕ :=
  ext.clahe (gray img)

/-- The blurred buffer (`cv2.GaussianBlur(enhanced, (3, 3), 0)`). -/
def blurred (ext : Ext) (img : CImg) : ℕ → ℕ → ℕ :=
  blur3 img.h img.w (enhanced ext img)

/-- The absolute x-gradient map (`np.abs(cv2.Sobel(blurred, ...))`). -/
def abs_sobel (ext : Ext) (img : CImg) : ℕ → ℕ → ℕ :=
  sobel_x_abs img.h img.w (blurred ext img)

/-- First row of the central band `center_h - crop_height // 2`. -/
def roi_lo (h : ℕ) : ℕ := h / 2 - h / 3 / 2

/-- One past the last row of the central band `center_h + crop_height // 2`. -/
def roi_hi (h : ℕ) : ℕ := h / 2 + h / 3 / 2

/-- Rows of the central horizontal band
`abs_sobel_x[center_h - crop_height // 2 : center_h + crop_height // 2, :]`. -/
def roi_rows (h : ℕ) : List ℕ :=
  List.range' (roi_lo h) (roi_hi h - roi_lo h)

/-- Raw projection profile: per-column mean of the gradient band
(`np.mean(roi, axis=0)`).  When the band is empty (`h ≤ 5`) the divisor is
zero; numpy produces NaN there, embedded as the rational `0 / 0 = 0`, which
matches the observed x86 behaviour of the later `uint8` cast (NaN casts to
0). -/
def raw_profile (ext : Ext) (img : CImg) (i : ℕ) : ℚ :=
  (((roi_rows img.h).map (fun y => (abs_sobel ext img y i : ℚ))).sum) /
    (roi_rows img.h).length

/-- The background-masked profile (`profile = profile * background_mask`). -/
def profile_masked (ext : Ext) (img : CImg) (i : ℕ) : ℚ :=
  raw_profile ext img i * background_mask img i

/-- The masked profile as the length-`w` array the source works with. -/
def masked_list (ext : Ext) (img : CImg) : List ℚ :=
  (List.range img.w).map (profile_masked ext img)

/-- Minimum of a profile array (`np.min`); the source only evaluates it on
the nonempty length-`w` masked profile, where folding from the first sample
is the plain list minimum. -/
def np_min (p : List ℚ) : ℚ := p.foldr min (p.getD 0 0)

/-- Maximum of a profile array (`np.max`). -/
def np_max (p : List ℚ) : ℚ := p.foldr max (p.getD 0 0)

/-- One sample after the conditional min-max rescaling of lines 75-77: the
rescale to `[0, 255]` runs only when `np.max(p) - np.min(p) > 0`,
otherwise the sample is left as it is. -/
def scale_sample (p : List ℚ) (q : ℚ) : ℚ :=
  if 0 < np_max p - np_min p then (q - np_min p) * 255 / (np_max p - np_min p)
  else q

/-- The `ProfileNormalizer` of lines 75-77: conditional min-max rescale
followed by `profile.astype(np.uint8)` — a C-style float-to-`uint8`
conversion, i.e. truncation toward zero and taking the low byte (the
pipeline's samples are nonnegative, so this is floor then `% 256`). -/
def normalize_profile (p : List ℚ) : List ℕ :=
  p.map (fun q => (Int.floor (scale_sample p q)).toNat % 256)

/-- The normalised `uint8` profile returned and fed to peak detection. -/
def profile_list (ext : Ext) (img : CImg) : List ℕ :=
  normalize_profile (masked_list ext img)

/-! ### Period estimation (`np.fft`) -/

/-- Arithmetic mean of the `uint8` profile (`np.mean(profile)`). -/
def profile_mean (p : List ℕ) : ℚ :=
  ((p.map (fun v => (v : ℚ))).sum) / p.length

/-- Number of strictly positive frequency bins of `np.fft.fftfreq(n)`:
`k / n` for `1 ≤ k ≤ ⌈n/2⌉ - 1`. -/
def pos_freq_count (n : ℕ) : ℕ := (n + 1) / 2 - 1

/-- The bin numbers `k` of the strictly positive frequencies `k / n`, in
spectrum order (`freqs[pos_mask]`). -/
def pos_ks (n : ℕ) : List ℕ :=
  (List.range (pos_freq_count n)).map (· + 1)

/-- Magnitude of bin `k` of `np.fft.fft(profile - np.mean(profile))`:
the modulus of `∑_j (p_j - mean) e^(-2 pi i j k / n)`. -/
noncomputable def dft_mag (p : List ℕ) (k : ℕ) : ℝ :=
  Complex.abs (∑ j ∈ Finset.range p.length,
    (((p.getD j 0 : ℚ) : ℂ) - ((profile_mean p : ℚ) : ℂ)) *
      Complex.exp (-(2 * Real.pi * Complex.I * j * k) / p.length))

/-- Model of `np.argmax`: index of the first occurrence of the maximum
(the running best is replaced only on a strict increase). -/
noncomputable def np_argmax_aux : List ℝ → ℕ → ℕ → ℝ → ℕ
  | [], _, best, _ => best
  | v :: rest, i, best, bv =>
    if bv < v then np_argmax_aux rest (i + 1) i v
    else np_argmax_aux rest (i + 1) best bv

/-- Model of `np.argmax` on a magnitude list (0 on the empty list, never
reached by the source, which guards with `len(fft_mag) > 0`). -/
noncomputable def np_argmax : List ℝ → ℕ
  | [] => 0
  | v :: rest => np_argmax_aux rest 1 0 v

/-! The cutoff comparison of line 90, `pos_freqs > (10 / len(profile))`,
is decided on IEEE-754 binary64 values, and the rounding genuinely
matters there: at some widths the bin at exactly `10 / W` cycles/pixel
survives the comparison, at others it is discarded.  `fl` below is the
exact rational value of the nearest binary64 double (ties to even), the
rounding CPython and numpy perform. -/

/-- Number of binary digits of `n` (`⌊log2 n⌋ + 1`, and `0` for `0`),
computed by fuelled halving; `bitlen` always passes enough fuel. -/
def blen : ℕ → ℕ → ℕ
  | 0, _ => 0
  | f + 1, n => if n = 0 then 0 else blen f (n / 2) + 1

/-- Length of the binary representation of `n`. -/
def bitlen (n : ℕ) : ℕ := blen n n

/-- Round a positive rational to the nearest IEEE-754 binary64 value,
ties to even, returned as the exact rational that double denotes.  The
53-bit significand window is located from the bit lengths of numerator
and denominator; below `2^-1022` the quantum is pinned at `2^-1074` (the
subnormal range).  Overflow to infinity (`q ≥ 2^1024`) is not modelled:
every value this development rounds lies below 16. -/
def fl_pos (q : ℚ) : ℚ :=
  let a := q.num.toNat
  let la := bitlen a
  let lb := bitlen q.den
  let e : ℤ := if q.den * 2 ^ la ≤ a * 2 ^ lb then (la : ℤ) - lb
    else (la : ℤ) - lb - 1
  let s : ℤ := 52 - max e (-1022)
  let m : ℚ := if 0 ≤ s then q * 2 ^ s.toNat else q / 2 ^ (-s).toNat
  let n0 : ℤ := m.num / (m.den : ℤ)
  let frac2 : ℤ := 2 * (m.num - n0 * (m.den : ℤ))
  let mhat : ℤ :=
    if frac2 < (m.den : ℤ) then n0
    else if (m.den : ℤ) < frac2 then n0 + 1
    else if n0 % 2 = 0 then n0 else n0 + 1
  if 0 ≤ s then (mhat : ℚ) / 2 ^ s.toNat else (mhat : ℚ) * 2 ^ (-s).toNat

/-- Correct rounding of any rational to binary64 (`fl_pos` by sign). -/
def fl (q : ℚ) : ℚ :=
  if 0 < q then fl_pos q else if q < 0 then -fl_pos (-q) else 0

/-- The double `val = 1.0 / n` computed by `np.fft.fftfreq` (the length is
converted to a double first; up to `2^53` that conversion is exact). -/
def fl_recip (n : ℕ) : ℚ := fl (1 / fl (n : ℚ))

/-- The positive frequency `k / n` as the double `np.fft.fftfreq(n)`
stores it: the bin index as a double times the rounded reciprocal,
rounded once more by the multiplication. -/
def fl_freq (n k : ℕ) : ℚ := fl (fl (k : ℚ) * fl_recip n)

/-- The cutoff `10 / len(profile)` of line 90: CPython's true division of
two integers is correctly rounded, a single rounding of the exact
ratio. -/
def fl_cutoff (n : ℕ) : ℚ := fl (10 / (n : ℚ))

/-- The surviving frequency bins of
`valid_mask = pos_freqs > (10 / len(profile))` (line 90): the comparison
the source evaluates is between binary64 doubles, so bin `k` survives
exactly when its rounded frequency exceeds the rounded cutoff.  In exact
arithmetic this would be `10 < k`, but the roundings tip the boundary bin
`k = 10` either way depending on the width: it is discarded at `n = 60`
or `66`, kept at `n = 22` or `44`. -/
def valid_ks (n : ℕ) : List ℕ :=
  (pos_ks n).filter (fun k => decide (fl_cutoff n < fl_freq n k))

/-- The spectral period estimate of the source (lines 80-101): positive
frequency bins whose double-precision frequency passes the cutoff comparison
survive; if any does, the estimate is the reciprocal of the frequency of
the first maximal-magnitude survivor, embedded as the exact rational
`n / k` (the float reciprocal agrees to within one part in `2^51`, which
no conclusion of this development distinguishes); otherwise (or when
there is no positive bin at all) the fallback `20` is returned. -/
noncomputable def estimated_period (p : List ℕ) : ℚ :=
  if 0 < (pos_ks p.length).length then
    if (valid_ks p.length).length ≠ 0 then
      (p.length : ℚ) / ((valid_ks p.length).getD
        (np_argmax ((valid_ks p.length).map (dft_mag p))) 0)
    else 20
  else 20

/-- Python `int()` on a rational: truncation toward zero (`Int.tdiv` is
T-division, rounding the quotient toward zero like CPython's
`float.__trunc__`; the denominator is positive). -/
def py_int (q : ℚ) : ℤ := Int.tdiv q.num q.den

/-- The peak-spacing parameter of lines 105-106:
`min_distance = max(3, int(estimated_period * 0.6))` clamped above by
`min(min_distance, 50)`. -/
def min_distance_of (est : ℚ) : ℕ :=
  min (max 3 (py_int (est * (3 / 5))).toNat) 50

/-! ### Pipeline wiring and annotation -/

/-- The period estimate of the pipeline on a decoded image. -/
noncomputable def pipeline_period (ext : Ext) (img : CImg) : ℚ :=
  estimated_period (profile_list ext img)

/-- The `min_distance` actually passed to `find_peaks`. -/
noncomputable def pipeline_min_distance (ext : Ext) (img : CImg) : ℕ :=
  min_distance_of (pipeline_period ext img)

/-- The detected peak columns
(`find_peaks(profile, distance=min_distance, prominence=10)`). -/
noncomputable def pipeline_peaks (ext : Ext) (img : CImg) : List ℕ :=
  find_peaks (profile_list ext img) (pipeline_min_distance ext img) 10

/-- The returned wafer count (`count = len(peaks)`). -/
noncomputable def pipeline_count (ext : Ext) (img : CImg) : ℕ :=
  (pipeline_peaks ext img).length

/-- The vertical markers: `cv2.line(result_img, (p, 0), (p, h), (0,0,255), 1)`
paints column `p` red over the full image height. -/
def draw_lines (pix : ℕ → ℕ → ℕ × ℕ × ℕ) (ps : List ℕ) : ℕ → ℕ → ℕ × ℕ × ℕ :=
  fun y x => if x ∈ ps then (0, 0, 255) else pix y x

/-- The annotated result: lines are drawn on `img.copy()` first, then
`cv2.putText` overlays the count label. -/
noncomputable def result_img (ext : Ext) (img : CImg) : ℕ → ℕ → ℕ × ℕ × ℕ :=
  ext.putText (draw_lines img.pix (pipeline_peaks ext img))
    (pipeline_count ext img)

/-- The top-level `WaferCounter.process`: decode, or fail with the decode
error before any pipeline stage runs; on success return
`(count, result_img, profile)`. -/
noncomputable def process (ext : Ext) (input : ℕ) :
    Except ProcessError (ℕ × (ℕ → ℕ → ℕ × ℕ × ℕ) × List ℕ) :=
  match ext.decode input with
  | none => Except.error ProcessError.imageDecodeError
  | some img =>
    Except.ok (pipeline_count ext img, result_img ext img, profile_list ext img)

/-! ### Structural lemmas about the `find_peaks` model -/

attribute [local semireducible] List.mergeSort List.merge

attribute [local semireducible] Rat.add Rat.mul Rat.inv Rat.sub

set_option maxRecDepth 16000

theorem getD_drop_nat (x : List ℕ) (n j : ℕ) :
    (x.drop n).getD j 0 = x.getD (n + j) 0 := by
  simp [List.getD_eq_getElem?_getD, List.getElem?_drop]

theorem takeWhile_getD {p : ℕ → Bool} :
    ∀ (l : List ℕ) (j : ℕ), j < (l.takeWhile p).length → p (l.getD j 0) = true := by
  intro l
  induction l with
  | nil => intro j h; simp at h
  | cons a t ih =>
    intro j h
    by_cases hpa : p a
    · cases j with
      | zero => simpa [List.getD] using hpa
      | succ j =>
        rw [List.takeWhile_cons, if_pos hpa] at h
        simp only [List.length_cons, Nat.succ_lt_succ_iff] at h
        simpa [List.getD] using ih j h
    · rw [List.takeWhile_cons, if_neg hpa] at h
      simp at h

theorem takeWhile_stop {p : ℕ → Bool} :
    ∀ (l : List ℕ), (l.takeWhile p).length < l.length →
      p (l.getD (l.takeWhile p).length 0) = false := by
  intro l
  induction l with
  | nil => intro h; simp at h
  | cons a t ih =>
    intro h
    by_cases hpa : p a
    · rw [List.takeWhile_cons, if_pos hpa] at h ⊢
      simp only [List.length_cons, Nat.succ_lt_succ_iff] at h
      simpa [List.getD] using ih h
    · rw [List.takeWhile_cons, if_neg hpa]
      simpa [List.getD] using Bool.of_not_eq_true hpa

theorem plateau_right_ge (x : List ℕ) (l : ℕ) : l ≤ plateau_right x l :=
  Nat.le_add_right _ _

theorem plateau_right_lt (x : List ℕ) (l : ℕ) (hl : l < x.length) :
    plateau_right x l < x.length := by
  have h := (List.takeWhile_sublist
    (fun v => v == x.getD l 0) (l := x.drop (l + 1))).length_le
  simp only [List.length_drop] at h
  unfold plateau_right
  omega

theorem plateau_const (x : List ℕ) (l j : ℕ) (h1 : l ≤ j)
    (h2 : j ≤ plateau_right x l) : x.getD j 0 = x.getD l 0 := by
  rcases Nat.eq_or_lt_of_le h1 with h | h
  · rw [h]
  · have hj : j = l + 1 + (j - l - 1) := by omega
    have hlt : j - l - 1 <
        ((x.drop (l + 1)).takeWhile (fun v => v == x.getD l 0)).length := by
      unfold plateau_right at h2; omega
    have := takeWhile_getD (x.drop (l + 1)) (j - l - 1) hlt
    rw [getD_drop_nat] at this
    simp only [beq_iff_eq] at this
    rw [hj]
    exact this

theorem plateau_break (x : List ℕ) (l : ℕ)
    (h : plateau_right x l + 1 < x.length) :
    x.getD (plateau_right x l + 1) 0 ≠ x.getD l 0 := by
  have hlen : ((x.drop (l + 1)).takeWhile (fun v => v == x.getD l 0)).length <
      (x.drop (l + 1)).length := by
    simp only [List.length_drop]
    unfold plateau_right at h
    omega
  have := takeWhile_stop (p := fun v => v == x.getD l 0) (x.drop (l + 1)) hlen
  rw [getD_drop_nat] at this
  have harg : l + 1 + ((x.drop (l + 1)).takeWhile
      (fun v => v == x.getD l 0)).length = plateau_right x l + 1 := by
    unfold plateau_right; omega
  rw [harg] at this
  intro hc
  rw [hc] at this
  simp at this

/-- Inversion of the candidate filter of `local_maxima`. -/
theorem local_maxima_spec {x : List ℕ} {p : ℕ} (hp : p ∈ local_maxima x) :
    ∃ l, 1 ≤ l ∧ x.getD (l - 1) 0 < x.getD l 0 ∧
      plateau_right x l + 1 < x.length ∧
      x.getD (plateau_right x l + 1) 0 < x.getD l 0 ∧
      l ≤ p ∧ p ≤ plateau_right x l ∧ p = (l + plateau_right x l) / 2 := by
  unfold local_maxima at hp
  rcases List.mem_filterMap.mp hp with ⟨l, _, hl⟩
  refine ⟨l, ?_⟩
  by_cases h1 : 1 ≤ l ∧ x.getD (l - 1) 0 < x.getD l 0
  · rw [if_pos h1] at hl
    by_cases h2 : plateau_right x l + 1 < x.length ∧
        x.getD (plateau_right x l + 1) 0 < x.getD l 0
    · rw [if_pos h2] at hl
      have hpe : p = (l + plateau_right x l) / 2 := (Option.some_inj.mp hl).symm
      have hlr : l ≤ plateau_right x l := plateau_right_ge x l
      refine ⟨h1.1, h1.2, h2.1, h2.2, ?_, ?_, hpe⟩
      · rw [hpe]; omega
      · rw [hpe]; omega
    · rw [if_neg h2] at hl; exact absurd hl (by simp)
  · rw [if_neg h1] at hl; exact absurd hl (by simp)

theorem local_maxima_pos {x : List ℕ} {p : ℕ} (hp : p ∈ local_maxima x) :
    1 ≤ p ∧ p + 1 < x.length := by
  rcases local_maxima_spec hp with ⟨l, h1, _, hr, _, hlp, hpr, _⟩
  exact ⟨Nat.le_trans h1 hlp, by omega⟩

/-- Every retained candidate is a (plateau) local maximum: its height is
the plateau height, no higher sample is adjacent, and a strictly smaller
sample bounds the plateau on each side. -/
theorem local_maxima_is_max {x : List ℕ} {p : ℕ} (hp : p ∈ local_maxima x) :
    x.getD (p - 1) 0 ≤ x.getD p 0 ∧ x.getD (p + 1) 0 ≤ x.getD p 0 := by
  rcases local_maxima_spec hp with ⟨l, h1, hrise, hrb, hdrop, hlp, hpr, _⟩
  have hpv : x.getD p 0 = x.getD l 0 := plateau_const x l p hlp hpr
  constructor
  · rcases Nat.eq_or_lt_of_le hlp with h | h
    · subst h
      rw [hpv]
      exact Nat.le_of_lt hrise
    · have : x.getD (p - 1) 0 = x.getD l 0 :=
        plateau_const x l (p - 1) (by omega) (by omega)
      rw [this, hpv]
  · rcases Nat.eq_or_lt_of_le hpr with h | h
    · rw [hpv, h]
      exact Nat.le_of_lt hdrop
    · have : x.getD (p + 1) 0 = x.getD l 0 :=
        plateau_const x l (p + 1) (by omega) (by omega)
      rw [this, hpv]

/-- Distinct plateaus are separated: a later candidate's plateau starts at
least two columns past the earlier plateau's right edge. -/
theorem cand_separated {x : List ℕ} {l1 l2 : ℕ} (h12 : l1 < l2)
    (hrise2 : x.getD (l2 - 1) 0 < x.getD l2 0)
    (hdrop1 : x.getD (plateau_right x l1 + 1) 0 < x.getD l1 0) :
    plateau_right x l1 + 2 ≤ l2 := by
  by_contra hc
  push_neg at hc
  have hl2r : l2 ≤ plateau_right x l1 + 1 := by omega
  rcases Nat.eq_or_lt_of_le hl2r with h | h
  · have hm : x.getD (l2 - 1) 0 = x.getD l1 0 :=
      plateau_const x l1 (l2 - 1) (by omega) (by omega)
    rw [hm, h] at hrise2
    exact absurd (Nat.lt_trans hrise2 hdrop1) (Nat.lt_irrefl _)
  · have hv2 : x.getD l2 0 = x.getD l1 0 :=
      plateau_const x l1 l2 (by omega) (by omega)
    have hm : x.getD (l2 - 1) 0 = x.getD l1 0 :=
      plateau_const x l1 (l2 - 1) (by omega) (by omega)
    rw [hm, hv2] at hrise2
    exact absurd hrise2 (Nat.lt_irrefl _)

theorem local_maxima_sorted (x : List ℕ) :
    List.Sorted (· < ·) (local_maxima x) := by
  unfold local_maxima
  rw [List.Sorted, List.pairwise_filterMap]
  refine (List.pairwise_lt_range x.length).imp ?_
  intro l1 l2 h12 m1 hm1 m2 hm2
  have hspec : ∀ l m, (if 1 ≤ l ∧ x.getD (l - 1) 0 < x.getD l 0 then
      if plateau_right x l + 1 < x.length ∧
          x.getD (plateau_right x l + 1) 0 < x.getD l 0 then
        some ((l + plateau_right x l) / 2)
      else none
    else none) = some m →
      1 ≤ l ∧ x.getD (l - 1) 0 < x.getD l 0 ∧
        plateau_right x l + 1 < x.length ∧
        x.getD (plateau_right x l + 1) 0 < x.getD l 0 ∧
        m = (l + plateau_right x l) / 2 := by
    intro l m hm
    by_cases h1 : 1 ≤ l ∧ x.getD (l - 1) 0 < x.getD l 0
    · rw [if_pos h1] at hm
      by_cases h2 : plateau_right x l + 1 < x.length ∧
          x.getD (plateau_right x l + 1) 0 < x.getD l 0
      · rw [if_pos h2] at hm
        exact ⟨h1.1, h1.2, h2.1, h2.2, (Option.some_inj.mp hm).symm⟩
      · rw [if_neg h2] at hm; exact absurd hm (by simp)
    · rw [if_neg h1] at hm; exact absurd hm (by simp)
  rcases hspec l1 m1 (Option.mem_def.mp hm1) with ⟨_, _, _, hd1, he1⟩
  rcases hspec l2 m2 (Option.mem_def.mp hm2) with ⟨_, hr2, _, _, he2⟩
  have hsep : plateau_right x l1 + 2 ≤ l2 := cand_separated h12 hr2 hd1
  have hm1r : m1 ≤ plateau_right x l1 := by
    have := plateau_right_ge x l1; rw [he1]; omega
  have hm2l : l2 ≤ m2 := by
    have := plateau_right_ge x l2; rw [he2]; omega
  omega

theorem mem_prune_near {d c k : ℕ} {keep : List ℕ} :
    k ∈ prune_near d c keep ↔ k ∈ keep ∧ (k = c ∨ d ≤ Nat.dist c k) := by
  unfold prune_near
  simp [List.mem_filter]

theorem select_loop_sublist (d : ℕ) :
    ∀ (order keep : List ℕ), (select_loop d order keep).Sublist keep := by
  intro order
  induction order with
  | nil => intro keep; exact List.Sublist.refl keep
  | cons c rest ih =>
    intro keep
    rw [select_loop]
    by_cases hc : c ∈ keep
    · rw [if_pos hc]
      exact (ih _).trans (List.filter_sublist keep)
    · rw [if_neg hc]
      exact ih keep

/-- Combined invariant of the pruning loop, relative to ANY processing
order along which heights are non-increasing (all that `np.argsort`
guarantees).  After the loop: (1) no two kept candidates are closer than
`d`; (2) every candidate of `cands` that was evicted lies within `d` of a
distinct kept candidate of height at least its own. -/
theorem select_loop_inv (x : List ℕ) (d : ℕ) (cands : List ℕ) :
    ∀ (order keep : List ℕ),
      List.Pairwise (fun a b => x.getD b 0 ≤ x.getD a 0) order →
      order.Nodup →
      (∀ j ∈ keep, j ∉ order → ∀ k ∈ keep, k ≠ j → Nat.dist j k < d → False) →
      (∀ k ∈ cands, k ∉ keep → ∃ r, r ∈ keep ∧ r ∉ order ∧ Nat.dist r k < d ∧
        x.getD k 0 ≤ x.getD r 0 ∧ k ≠ r) →
      (∀ j ∈ select_loop d order keep, ∀ k ∈ select_loop d order keep,
        k ≠ j → Nat.dist j k < d → False) ∧
      (∀ k ∈ cands, k ∉ select_loop d order keep →
        ∃ r, r ∈ select_loop d order keep ∧ Nat.dist r k < d ∧
          x.getD k 0 ≤ x.getD r 0 ∧ k ≠ r) := by
  intro order
  induction order with
  | nil =>
    intro keep _ _ h1 h2
    rw [select_loop]
    constructor
    · intro j hj k hk hkj hdist
      exact h1 j hj (by simp) k hk hkj hdist
    · intro k hk hknot
      rcases h2 k hk hknot with ⟨r, hr1, _, hr3, hr4⟩
      exact ⟨r, hr1, hr3, hr4⟩
  | cons c rest ih =>
    intro keep hpw hnd h1 h2
    obtain ⟨hcrest, hpwr⟩ := List.pairwise_cons.mp hpw
    obtain ⟨hcnot, hndr⟩ := List.nodup_cons.mp hnd
    by_cases hc : c ∈ keep
    · rw [select_loop, if_pos hc]
      apply ih (prune_near d c keep) hpwr hndr
      · intro j hj hjrest k hk hkj hdist
        rcases mem_prune_near.mp hj with ⟨hjkeep, _⟩
        rcases mem_prune_near.mp hk with ⟨hkkeep, hkc⟩
        by_cases hjc : j = c
        · subst hjc
          rcases hkc with h | h
          · exact hkj h
          · omega
        · have hjno : j ∉ c :: rest := by simp [hjc, hjrest]
          exact h1 j hjkeep hjno k hkkeep hkj hdist
      · intro k hkcand hknot
        by_cases hkkeep : k ∈ keep
        · have hfail : ¬(k = c ∨ d ≤ Nat.dist c k) := fun h =>
            hknot (mem_prune_near.mpr ⟨hkkeep, h⟩)
          push_neg at hfail
          obtain ⟨hkne, hdlt⟩ := hfail
          have hkrest : k ∈ rest := by
            by_contra hkr
            have hkno : k ∉ c :: rest := by simp [hkne, hkr]
            have hdkc : Nat.dist k c < d := by rw [Nat.dist_comm]; omega
            exact h1 k hkkeep hkno c hc (Ne.symm hkne) hdkc
          have hprio := hcrest k hkrest
          exact ⟨c, mem_prune_near.mpr ⟨hc, Or.inl rfl⟩, hcnot, hdlt, hprio,
            hkne⟩
        · rcases h2 k hkcand hkkeep with ⟨r, hrk, hrnot, hrd, hrp⟩
          have hrnrest : r ∉ rest := fun h => hrnot (by simp [h])
          have hrnec : r ≠ c := fun h => hrnot (by simp [h])
          have hrkeep : r ∈ prune_near d c keep := by
            refine mem_prune_near.mpr ⟨hrk, Or.inr ?_⟩
            by_contra hlt
            push_neg at hlt
            have hdrc : Nat.dist r c < d := by rw [Nat.dist_comm]; omega
            exact h1 r hrk hrnot c hc (Ne.symm hrnec) hdrc
          exact ⟨r, hrkeep, hrnrest, hrd, hrp⟩
    · rw [select_loop, if_neg hc]
      apply ih keep hpwr hndr
      · intro j hj hjrest k hk hkj hdist
        have hjc : j ≠ c := fun h => hc (h ▸ hj)
        have hjno : j ∉ c :: rest := by simp [hjc, hjrest]
        exact h1 j hj hjno k hk hkj hdist
      · intro k hkcand hknot
        rcases h2 k hkcand hknot with ⟨r, hr1, hr2, hr3, hr4⟩
        exact ⟨r, hr1, fun h => hr2 (by simp [h]), hr3, hr4⟩

theorem prio_ge_trans (x : List ℕ) (a b c : ℕ) :
    prio_ge x a b = true → prio_ge x b c = true → prio_ge x a c = true := by
  simp only [prio_ge, decide_eq_true_eq]
  omega

theorem prio_ge_total (x : List ℕ) (a b : ℕ) :
    (prio_ge x a b || prio_ge x b a) = true := by
  simp only [prio_ge, Bool.or_eq_true, decide_eq_true_eq]
  omega

theorem prio_ge_height {x : List ℕ} {a b : ℕ} (h : prio_ge x a b = true) :
    x.getD b 0 ≤ x.getD a 0 := by
  simp only [prio_ge, decide_eq_true_eq] at h
  omega

/-- Specification of the distance-pruning pass along ANY admissible
order: the survivors are a subsequence of the candidates, pairwise at
least `d` apart, and every evicted candidate lies within `d` of a
distinct surviving candidate of height at least its own. -/
theorem select_by_peak_distance_ord_spec (x : List ℕ) (cands : List ℕ)
    (d : ℕ) (ord : List ℕ) (hnd : cands.Nodup)
    (hord : height_order x cands ord) :
    (select_by_peak_distance_ord cands d ord).Sublist cands ∧
    (∀ j ∈ select_by_peak_distance_ord cands d ord,
      ∀ k ∈ select_by_peak_distance_ord cands d ord,
        k ≠ j → d ≤ Nat.dist j k) ∧
    (∀ k ∈ cands, k ∉ select_by_peak_distance_ord cands d ord →
      ∃ r, r ∈ select_by_peak_distance_ord cands d ord ∧ Nat.dist r k < d ∧
        x.getD k 0 ≤ x.getD r 0 ∧ k ≠ r) := by
  obtain ⟨hperm, hpw⟩ := hord
  have hndo : ord.Nodup := hperm.nodup_iff.mpr hnd
  have hinv := select_loop_inv x d cands ord cands hpw hndo
    (fun j hj hjno => absurd (hperm.mem_iff.mpr hj) hjno)
    (fun k hk hkno => absurd hk hkno)
  set K := select_loop d ord cands with hK
  have hmem : ∀ k, k ∈ select_by_peak_distance_ord cands d ord ↔
      k ∈ cands ∧ k ∈ K := by
    intro k
    unfold select_by_peak_distance_ord
    simp [List.mem_filter]
  refine ⟨List.filter_sublist cands, ?_, ?_⟩
  · intro j hj k hk hkj
    rcases (hmem j).mp hj with ⟨_, hjK⟩
    rcases (hmem k).mp hk with ⟨_, hkK⟩
    by_contra hlt
    push_neg at hlt
    exact hinv.1 j hjK k hkK hkj hlt
  · intro k hk hknot
    have hkK : k ∉ K := fun h => hknot ((hmem k).mpr ⟨hk, h⟩)
    rcases hinv.2 k hk hkK with ⟨r, hrK, hrd, hrp⟩
    have hrc : r ∈ cands := (select_loop_sublist d _ cands).mem hrK
    exact ⟨r, (hmem r).mpr ⟨hrc, hrK⟩, hrd, hrp⟩

/-- The executable tie order is admissible: `priority_order` permutes the
candidates and is non-increasing in height. -/
theorem priority_order_admissible (x : List ℕ) (cands : List ℕ) :
    height_order x cands (priority_order x cands) := by
  refine ⟨List.mergeSort_perm cands (prio_ge x), ?_⟩
  have hpw : List.Pairwise (fun a b => prio_ge x a b = true)
      (priority_order x cands) :=
    List.sorted_mergeSort (prio_ge_trans x) (prio_ge_total x) cands
  exact hpw.imp (fun h => prio_ge_height h)

/-- The concrete pruning pass inherits the specification of the
admissible orders. -/
theorem select_by_peak_distance_spec (x : List ℕ) (cands : List ℕ) (d : ℕ)
    (hnd : cands.Nodup) :
    (select_by_peak_distance x cands d).Sublist cands ∧
    (∀ j ∈ select_by_peak_distance x cands d,
      ∀ k ∈ select_by_peak_distance x cands d, k ≠ j → d ≤ Nat.dist j k) ∧
    (∀ k ∈ cands, k ∉ select_by_peak_distance x cands d →
      ∃ r, r ∈ select_by_peak_distance x cands d ∧ Nat.dist r k < d ∧
        x.getD k 0 ≤ x.getD r 0 ∧ k ≠ r) :=
  select_by_peak_distance_ord_spec x cands d (priority_order x cands) hnd
    (priority_order_admissible x cands)

theorem mem_find_peaks {x : List ℕ} {d prom p : ℕ}
    (hp : p ∈ find_peaks x d prom) :
    p ∈ select_by_peak_distance x (local_maxima x) d ∧
      prom ≤ prominence_at x p := by
  unfold find_peaks at hp
  rcases List.mem_filter.mp hp with ⟨h1, h2⟩
  exact ⟨h1, by simpa using h2⟩

theorem mem_find_peaks_ord {x : List ℕ} {d prom p : ℕ} {ord : List ℕ}
    (hp : p ∈ find_peaks_ord x d prom ord) :
    p ∈ select_by_peak_distance_ord (local_maxima x) d ord ∧
      prom ≤ prominence_at x p := by
  unfold find_peaks_ord at hp
  rcases List.mem_filter.mp hp with ⟨h1, h2⟩
  exact ⟨h1, by simpa using h2⟩

theorem find_peaks_mem_local_maxima {x : List ℕ} {d prom p : ℕ}
    (hp : p ∈ find_peaks x d prom) : p ∈ local_maxima x := by
  have h := (mem_find_peaks hp).1
  have hsub := (select_by_peak_distance_spec x (local_maxima x) d
    (local_maxima_sorted x).nodup).1
  exact hsub.mem h

theorem find_peaks_sorted (x : List ℕ) (d prom : ℕ) :
    List.Sorted (· < ·) (find_peaks x d prom) := by
  have h1 := local_maxima_sorted x
  have hsub := (select_by_peak_distance_spec x (local_maxima x) d h1.nodup).1
  have h2 : List.Sorted (· < ·) (select_by_peak_distance x (local_maxima x) d) :=
    h1.sublist hsub
  exact h2.filter _

theorem find_peaks_bounds {x : List ℕ} {d prom p : ℕ}
    (hp : p ∈ find_peaks x d prom) : 1 ≤ p ∧ p + 1 < x.length :=
  local_maxima_pos (find_peaks_mem_local_maxima hp)

theorem find_peaks_spacing {x : List ℕ} {d prom : ℕ} :
    ∀ j ∈ find_peaks x d prom, ∀ k ∈ find_peaks x d prom,
      k ≠ j → d ≤ Nat.dist j k := by
  intro j hj k hk hkj
  have hspec := select_by_peak_distance_spec x (local_maxima x) d
    (local_maxima_sorted x).nodup
  exact hspec.2.1 j (mem_find_peaks hj).1 k (mem_find_peaks hk).1 hkj

/-- Consecutive (indeed any two, in order) retained peaks are at least `d`
columns apart: the peak list is pairwise `a + d ≤ b`. -/
theorem find_peaks_pairwise_spacing (x : List ℕ) (d prom : ℕ) :
    List.Pairwise (fun a b => a + d ≤ b) (find_peaks x d prom) := by
  have hs := find_peaks_sorted x d prom
  rw [List.Sorted] at hs
  refine hs.imp_of_mem ?_
  intro a b ha hb hab
  have hd := find_peaks_spacing a ha b hb (Nat.ne_of_gt hab)
  have : Nat.dist a b = b - a := Nat.dist_eq_sub_of_le (Nat.le_of_lt hab)
  omega

/-! ### Claim C1 and C2 theorems -/

theorem profile_list_length (ext : Ext) (img : CImg) :
    (profile_list ext img).length = img.w := by
  simp [profile_list, normalize_profile, masked_list]

/-- Claim C1: for every image the pipeline processes, the peak set is a
strictly increasing sequence of column indices, each in `[0, W)`, any two
retained peaks (in particular adjacent ones) are at least `min_distance`
apart, and the returned count is the length of the peak set. -/
theorem C1_peakset_invariants (ext : Ext) (img : CImg) :
    List.Sorted (· < ·) (pipeline_peaks ext img) ∧
    (∀ p ∈ pipeline_peaks ext img, p < img.w) ∧
    List.Pairwise (fun a b => a + pipeline_min_distance ext img ≤ b)
      (pipeline_peaks ext img) ∧
    pipeline_count ext img = (pipeline_peaks ext img).length := by
  refine ⟨find_peaks_sorted _ _ _, ?_, find_peaks_pairwise_spacing _ _ _, rfl⟩
  intro p hp
  have hb := (find_peaks_bounds hp).2
  rw [profile_list_length] at hb
  omega

/-- Claim C2 counterexample — a conflicting pair of equal-height candidate
maxima: on the profile
`[0, 20, 0, 20, 0]` with `min_distance = 3`, columns 1 and 3 are both
local maxima of height 20 at distance 2 < 3, and the selection keeps
column 3 — the higher column index — so ties are not broken in favour of
the lower column index as claimed. -/
theorem C2_tie_break_counterexample :
    find_peaks [0, 20, 0, 20, 0] 3 10 = [3] ∧
    1 ∈ local_maxima [0, 20, 0, 20, 0] ∧
    3 ∈ local_maxima [0, 20, 0, 20, 0] ∧
    ([0, 20, 0, 20, 0] : List ℕ).getD 1 0 =
      ([0, 20, 0, 20, 0] : List ℕ).getD 3 0 ∧
    Nat.dist 1 3 < 3 := by
  decide

/-- Claim C2 (amended): for EVERY admissible processing order of the
candidates — any permutation of the local maxima along which heights are
non-increasing, which is all numpy's unstable argsort guarantees — every
retained peak is a local maximum with prominence at least the threshold,
retained peaks are pairwise at least `min_distance` apart, and every
candidate evicted by the spacing pass lies within `min_distance` of a
distinct surviving candidate of magnitude at least its own.  No fixed
column-direction rule for ties between equal-magnitude conflicting
candidates is part of the program: the stable small-array instance keeps
the higher column (`C2_tie_break_counterexample`), while other admissible
orders keep the lower one (see the witness). -/
theorem C2_peak_selection_spec (x : List ℕ) (d : ℕ) (ord : List ℕ)
    (hord : height_order x (local_maxima x) ord) :
    (∀ p ∈ find_peaks_ord x d 10 ord,
      x.getD (p - 1) 0 ≤ x.getD p 0 ∧ x.getD (p + 1) 0 ≤ x.getD p 0 ∧
        10 ≤ prominence_at x p) ∧
    (∀ j ∈ find_peaks_ord x d 10 ord, ∀ k ∈ find_peaks_ord x d 10 ord,
      k ≠ j → d ≤ Nat.dist j k) ∧
    (∀ c ∈ local_maxima x,
      c ∉ select_by_peak_distance_ord (local_maxima x) d ord →
      ∃ r, r ∈ select_by_peak_distance_ord (local_maxima x) d ord ∧
        Nat.dist r c < d ∧ x.getD c 0 ≤ x.getD r 0 ∧ c ≠ r) := by
  have hspec := select_by_peak_distance_ord_spec x (local_maxima x) d ord
    (local_maxima_sorted x).nodup hord
  refine ⟨?_, ?_, hspec.2.2⟩
  · intro p hp
    have hmem := mem_find_peaks_ord hp
    have hl := local_maxima_is_max (hspec.1.mem hmem.1)
    exact ⟨hl.1, hl.2, hmem.2⟩
  · intro j hj k hk hkj
    exact hspec.2.1 j (mem_find_peaks_ord hj).1 k (mem_find_peaks_ord hk).1 hkj

/-- Witness for C2's amended theorem on the concrete profile
`[0, 20, 0, 20, 0]` with spacing 3, along the admissible order `[1, 3]` —
the opposite tie order to the stable one: there the selection keeps
column 1 and evicts column 3, which is dominated by the surviving
equal-height column 1. -/
theorem C2_peak_selection_spec_witness :
    (([0, 20, 0, 20, 0] : List ℕ).getD 0 0 ≤
        ([0, 20, 0, 20, 0] : List ℕ).getD 1 0 ∧
      ([0, 20, 0, 20, 0] : List ℕ).getD 2 0 ≤
        ([0, 20, 0, 20, 0] : List ℕ).getD 1 0 ∧
      10 ≤ prominence_at [0, 20, 0, 20, 0] 1) ∧
    (∃ r, r ∈ select_by_peak_distance_ord
        (local_maxima [0, 20, 0, 20, 0]) 3 [1, 3] ∧
      Nat.dist r 3 < 3 ∧
      ([0, 20, 0, 20, 0] : List ℕ).getD 3 0 ≤
        ([0, 20, 0, 20, 0] : List ℕ).getD r 0 ∧ (3 : ℕ) ≠ r) :=
  ⟨(C2_peak_selection_spec [0, 20, 0, 20, 0] 3 [1, 3]
      ⟨by decide, by decide⟩).1 1 (by decide),
    (C2_peak_selection_spec [0, 20, 0, 20, 0] 3 [1, 3]
      ⟨by decide, by decide⟩).2.2 3 (by decide) (by decide)⟩

/-! ### Profile normaliser lemmas and claim C5 -/

theorem foldr_min_le_init {α : Type} [LinearOrder α] (x0 : α) (l : List α) :
    l.foldr min x0 ≤ x0 := by
  induction l with
  | nil => exact le_refl x0
  | cons a t ih => exact le_trans (min_le_right a _) ih

theorem foldr_min_le_mem {α : Type} [LinearOrder α] {x0 a : α} {l : List α}
    (ha : a ∈ l) : l.foldr min x0 ≤ a := by
  induction l with
  | nil => cases ha
  | cons b t ih =>
    rcases List.mem_cons.mp ha with h | h
    · rw [h]; exact min_le_left _ _
    · exact le_trans (min_le_right b _) (ih h)

theorem le_foldr_min {α : Type} [LinearOrder α] {x0 c : α} {l : List α}
    (h0 : c ≤ x0) (hl : ∀ a ∈ l, c ≤ a) : c ≤ l.foldr min x0 := by
  induction l with
  | nil => exact h0
  | cons b t ih =>
    exact le_min (hl b (by simp)) (ih (fun a ha => hl a (by simp [ha])))

theorem foldr_max_init_le {α : Type} [LinearOrder α] (x0 : α) (l : List α) :
    x0 ≤ l.foldr max x0 := by
  induction l with
  | nil => exact le_refl x0
  | cons a t ih => exact le_trans ih (le_max_right a _)

theorem mem_le_foldr_max {α : Type} [LinearOrder α] {x0 a : α} {l : List α}
    (ha : a ∈ l) : a ≤ l.foldr max x0 := by
  induction l with
  | nil => cases ha
  | cons b t ih =>
    rcases List.mem_cons.mp ha with h | h
    · rw [h]; exact le_max_left _ _
    · exact le_trans (ih h) (le_max_right b _)

theorem foldr_max_le {α : Type} [LinearOrder α] {x0 c : α} {l : List α}
    (h0 : x0 ≤ c) (hl : ∀ a ∈ l, a ≤ c) : l.foldr max x0 ≤ c := by
  induction l with
  | nil => exact h0
  | cons b t ih =>
    exact max_le (hl b (by simp)) (ih (fun a ha => hl a (by simp [ha])))

theorem getD_zero_mem {p : List ℚ} (h : p ≠ []) : p.getD 0 0 ∈ p := by
  cases p with
  | nil => exact absurd rfl h
  | cons a t => simp [List.getD]

theorem np_min_le_mem {p : List ℚ} {a : ℚ} (ha : a ∈ p) : np_min p ≤ a :=
  foldr_min_le_mem ha

theorem np_min_nonneg {p : List ℚ} (hne : p ≠ []) (h : ∀ a ∈ p, 0 ≤ a) :
    0 ≤ np_min p :=
  le_foldr_min (h _ (getD_zero_mem hne)) h

theorem mem_le_np_max {p : List ℚ} {a : ℚ} (ha : a ∈ p) : a ≤ np_max p :=
  mem_le_foldr_max ha

theorem raw_profile_nonneg (ext : Ext) (img : CImg) (i : ℕ) :
    0 ≤ raw_profile ext img i := by
  unfold raw_profile
  apply div_nonneg _ (Nat.cast_nonneg _)
  apply List.sum_nonneg
  intro a ha
  rcases List.mem_map.mp ha with ⟨y, _, rfl⟩
  exact Nat.cast_nonneg _

theorem profile_masked_nonneg (ext : Ext) (img : CImg) (i : ℕ) :
    0 ≤ profile_masked ext img i :=
  mul_nonneg (raw_profile_nonneg ext img i) (Nat.cast_nonneg _)

theorem masked_list_mem_nonneg (ext : Ext) (img : CImg) :
    ∀ a ∈ masked_list ext img, 0 ≤ a := by
  intro a ha
  rcases List.mem_map.mp ha with ⟨i, _, rfl⟩
  exact profile_masked_nonneg ext img i

theorem masked_list_ne_nil (ext : Ext) (img : CImg) :
    masked_list ext img ≠ [] := by
  have : (masked_list ext img).length = img.w := by simp [masked_list]
  intro h
  rw [h] at this
  exact absurd (this.symm.trans_lt img.wpos).false (by simp)

theorem profile_masked_mem (ext : Ext) (img : CImg) {i : ℕ} (hi : i < img.w) :
    profile_masked ext img i ∈ masked_list ext img :=
  List.mem_map.mpr ⟨i, List.mem_range.mpr hi, rfl⟩

/-- A zero sample is fixed by the conditional rescale whenever the profile
is nonnegative and actually attains zero. -/
theorem scale_sample_zero {p : List ℚ} (hmin : np_min p = 0) :
    scale_sample p 0 = 0 := by
  unfold scale_sample
  split
  · rw [hmin]; simp
  · rfl

/-- Claim C5: a background-masked column carries a zero normalised profile
sample.  The masked sample is zero; since the whole masked profile is
nonnegative, its minimum is then zero, so the min-max rescale maps the
sample to zero again (and the skipped branch keeps it zero). -/
theorem C5_mask_invariant (ext : Ext) (img : CImg) (i : ℕ) (hi : i < img.w)
    (hm : background_mask img i = 0) :
    (profile_list ext img).getD i 0 = 0 := by
  have hzero : profile_masked ext img i = 0 := by
    unfold profile_masked
    rw [hm]
    simp
  have hmin : np_min (masked_list ext img) = 0 := by
    apply le_antisymm
    · have := np_min_le_mem (profile_masked_mem ext img hi)
      rw [hzero] at this
      exact this
    · exact np_min_nonneg (masked_list_ne_nil ext img)
        (masked_list_mem_nonneg ext img)
  have hgd : (profile_list ext img).getD i 0 =
      (Int.floor (scale_sample (masked_list ext img)
        (profile_masked ext img i))).toNat % 256 := by
    unfold profile_list normalize_profile
    rw [List.getD_eq_getElem?_getD, List.getElem?_map]
    have : (masked_list ext img)[i]? = some (profile_masked ext img i) := by
      unfold masked_list
      rw [List.getElem?_map, List.getElem?_range hi]
      rfl
    rw [this]
    rfl
  rw [hgd, hzero, scale_sample_zero hmin]
  simp

/-! ### Concrete collaborator bundles and images for witnesses -/

/-- Trivial collaborators for concrete instantiations: a decoder that
always fails, identity contrast enhancement, and a text overlay that
leaves every pixel unchanged. -/
def id_ext : Ext where
  decode := fun _ => none
  clahe := fun f => f
  putText := fun pix _ => pix

/-- A uniform dark 6x6 image: its intensity 30 stays below the threshold
floor 40, so its background mask is all zero. -/
def img_dark : CImg where
  h := 6
  w := 6
  hpos := by norm_num
  wpos := by norm_num
  pix := fun _ _ => (30, 30, 30)

/-- A uniform mid-gray 8x8 image. -/
def img_gray8 : CImg where
  h := 8
  w := 8
  hpos := by norm_num
  wpos := by norm_num
  pix := fun _ _ => (100, 100, 100)

/-- A uniform image of height 3: its central gradient band is empty. -/
def img_short : CImg where
  h := 3
  w := 4
  hpos := by norm_num
  wpos := by norm_num
  pix := fun _ _ => (100, 100, 100)

/-- Collaborators whose decoder always succeeds with the mid-gray image. -/
def gray_ext : Ext where
  decode := fun _ => some img_gray8
  clahe := fun f => f
  putText := fun pix _ => pix

/-- Witness for C1 at the trivial collaborators and the dark 6x6 image. -/
theorem C1_peakset_invariants_witness :
    List.Sorted (· < ·) (pipeline_peaks id_ext img_dark) ∧
    (∀ p ∈ pipeline_peaks id_ext img_dark, p < img_dark.w) ∧
    List.Pairwise (fun a b => a + pipeline_min_distance id_ext img_dark ≤ b)
      (pipeline_peaks id_ext img_dark) ∧
    pipeline_count id_ext img_dark = (pipeline_peaks id_ext img_dark).length :=
  C1_peakset_invariants id_ext img_dark

/-- Witness for C5: on the dark uniform image every column is masked out,
and at column 0 the normalised profile indeed vanishes. -/
theorem C5_mask_invariant_witness :
    background_mask img_dark 0 = 0 ∧
    (profile_list id_ext img_dark).getD 0 0 = 0 :=
  ⟨by decide, C5_mask_invariant id_ext img_dark 0 (by decide) (by decide)⟩

/-! ### Constant profiles (claims C6 and C7) -/

theorem local_maxima_of_const {x : List ℕ} {v : ℕ}
    (hc : ∀ j, j < x.length → x.getD j 0 = v) : local_maxima x = [] := by
  unfold local_maxima
  rw [List.filterMap_eq_nil_iff]
  intro l hl
  rw [if_neg]
  rintro ⟨h1, h2⟩
  have hll : l < x.length := List.mem_range.mp hl
  rw [hc l hll, hc (l - 1) (by omega)] at h2
  exact absurd h2 (lt_irrefl v)

theorem find_peaks_of_const {x : List ℕ} {v : ℕ}
    (hc : ∀ j, j < x.length → x.getD j 0 = v) (d prom : ℕ) :
    find_peaks x d prom = [] := by
  unfold find_peaks select_by_peak_distance
  rw [local_maxima_of_const hc]
  rfl

theorem replicate_getD {α : Type} {n j : ℕ} (v d : α) (hj : j < n) :
    (List.replicate n v).getD j d = v := by
  rw [List.getD_eq_getElem?_getD, List.getElem?_replicate, if_pos hj]
  rfl

theorem find_peaks_replicate (n v d prom : ℕ) :
    find_peaks (List.replicate n v) d prom = [] := by
  apply find_peaks_of_const (v := v) _ d prom
  intro j hj
  rw [List.length_replicate] at hj
  exact replicate_getD v 0 hj

theorem np_min_replicate_zero (n : ℕ) :
    np_min (List.replicate n (0 : ℚ)) = 0 := by
  have hg : (List.replicate n (0 : ℚ)).getD 0 0 = 0 := by
    cases n with
    | zero => simp [List.getD]
    | succ m => exact replicate_getD (0 : ℚ) 0 (Nat.succ_pos m)
  unfold np_min
  rw [hg]
  apply le_antisymm
  · exact foldr_min_le_init 0 _
  · exact le_foldr_min le_rfl (fun a ha => by rw [List.eq_of_mem_replicate ha])

/-- A flat profile (`np.max == np.min`) has all its samples equal to the
minimum. -/
theorem flat_all_eq {p : List ℚ} (hflat : np_max p - np_min p = 0) :
    ∀ a ∈ p, a = np_min p := by
  intro a ha
  have h1 := np_min_le_mem ha
  have h2 := mem_le_np_max ha
  have : np_max p = np_min p := by linarith
  rw [this] at h2
  linarith

/-- The `uint8` cast of one flat sample. -/
theorem scale_sample_flat {p : List ℚ} (hflat : np_max p - np_min p = 0)
    (q : ℚ) : scale_sample p q = q := by
  unfold scale_sample
  rw [hflat]
  norm_num

/-- With the default `BORDER_REFLECT_101` border, the Sobel-X response at
the first column vanishes identically: the virtual left neighbour of
column 0 is column 1, so the derivative taps cancel pairwise. -/
theorem sobel_x_abs_col_zero (h w : ℕ) (hw : 0 < w) (f : ℕ → ℕ → ℕ)
    (y : ℕ) : sobel_x_abs h w f y 0 = 0 := by
  unfold sobel_x_abs
  have hx : reflect101 w (((0 : ℕ) : ℤ) + (-1)) =
      reflect101 w (((0 : ℕ) : ℤ) + 1) := by
    unfold reflect101
    rcases Nat.lt_or_ge 1 w with hw2 | hw2
    · rw [if_neg (by omega), if_pos (by norm_num), if_neg (by omega),
        if_neg (by norm_num), if_pos (by exact_mod_cast hw2)]
      norm_num
    · have hw1 : w = 1 := by omega
      rw [hw1]
      norm_num
  simp only []
  rw [hx]
  omega

/-- Column 0 of the raw projection profile is zero for every image. -/
theorem raw_profile_col_zero (ext : Ext) (img : CImg) :
    raw_profile ext img 0 = 0 := by
  unfold raw_profile
  rw [List.sum_eq_zero]
  · simp
  · intro a ha
    rcases List.mem_map.mp ha with ⟨y, _, rfl⟩
    rw [show abs_sobel ext img y 0 = 0 from
      sobel_x_abs_col_zero img.h img.w img.wpos (blurred ext img) y]
    simp

/-- Shared step: if every masked sample is zero, the normalised profile is
all-zero and the count is 0. -/
theorem pipeline_of_zero_masked (ext : Ext) (img : CImg)
    (hmask : ∀ i, i < img.w → profile_masked ext img i = 0) :
    profile_list ext img = List.replicate img.w 0 ∧
    pipeline_count ext img = 0 := by
  have hlist : masked_list ext img = List.replicate img.w 0 := by
    rw [List.eq_replicate_iff]
    refine ⟨by simp [masked_list], ?_⟩
    intro b hb
    rcases List.mem_map.mp hb with ⟨i, hi, rfl⟩
    exact hmask i (List.mem_range.mp hi)
  have hprof : profile_list ext img = List.replicate img.w 0 := by
    unfold profile_list
    rw [hlist]
    unfold normalize_profile
    rw [List.map_replicate]
    have hsc : scale_sample (List.replicate img.w (0 : ℚ)) 0 = 0 :=
      scale_sample_zero (np_min_replicate_zero img.w)
    rw [hsc]
    simp
  refine ⟨hprof, ?_⟩
  unfold pipeline_count pipeline_peaks
  rw [hprof, find_peaks_replicate]
  rfl

/-- Claim C6: whenever the masked raw profile has zero dynamic range
(`np.max == np.min`), the normaliser skips the min-max rescale — every
sample passes through the conditional unchanged — the resulting normalised
profile is all-zero, and the subsequent peak detection yields Count = 0.
A flat masked profile can only sit at value zero: with the reflect-101
border the Sobel-X response of column 0 vanishes identically, so the
(nonnegative) masked profile always contains a zero sample. -/
theorem C6_flat_profile (ext : Ext) (img : CImg)
    (hflat : np_max (masked_list ext img) - np_min (masked_list ext img) = 0) :
    (∀ q, scale_sample (masked_list ext img) q = q) ∧
    profile_list ext img = List.replicate img.w 0 ∧
    pipeline_count ext img = 0 := by
  have hm0 : profile_masked ext img 0 = 0 := by
    unfold profile_masked
    rw [raw_profile_col_zero]
    simp
  have hmem0 : (0 : ℚ) ∈ masked_list ext img := by
    rw [← hm0]
    exact profile_masked_mem ext img img.wpos
  have hmin0 : np_min (masked_list ext img) = 0 := by
    have h1 := np_min_le_mem hmem0
    have h2 := np_min_nonneg (masked_list_ne_nil ext img)
      (masked_list_mem_nonneg ext img)
    linarith
  have hmask : ∀ i, i < img.w → profile_masked ext img i = 0 := by
    intro i hi
    rw [flat_all_eq hflat _ (profile_masked_mem ext img hi), hmin0]
  exact ⟨scale_sample_flat hflat, (pipeline_of_zero_masked ext img hmask).1,
    (pipeline_of_zero_masked ext img hmask).2⟩

/-- Witness for C6: the dark uniform image has a flat (all-zero) masked
profile; the normalised profile is all-zero and the count is 0. -/
theorem C6_flat_profile_witness :
    scale_sample (masked_list id_ext img_dark) 5 = 5 ∧
    profile_list id_ext img_dark = List.replicate img_dark.w 0 ∧
    pipeline_count id_ext img_dark = 0 :=
  ⟨(C6_flat_profile id_ext img_dark (by decide)).1 5,
    (C6_flat_profile id_ext img_dark (by decide)).2.1,
    (C6_flat_profile id_ext img_dark (by decide)).2.2⟩

theorem blur3_of_pointwise_const {h w : ℕ} {f : ℕ → ℕ → ℕ} {u : ℕ}
    (hf : ∀ y x, f y x = u) : ∀ y x, blur3 h w f y x = u := by
  intro y x
  simp only [blur3, hf]
  omega

theorem sobel_of_pointwise_const {h w : ℕ} {f : ℕ → ℕ → ℕ} {u : ℕ}
    (hf : ∀ y x, f y x = u) : ∀ y x, sobel_x_abs h w f y x = 0 := by
  intro y x
  simp only [sobel_x_abs, hf]
  have : (-(u : ℤ) + u - 2 * u + 2 * u - u + u) = 0 := by ring
  rw [this]
  rfl

/-- Claim C7: a uniform-intensity image (with CLAHE, which maps constant
buffers to constant buffers, abstracted behind that contract) produces an
all-zero normalised profile and Count = 0: uniform gray stays uniform
through enhancement and blur, the Sobel-X response of a constant buffer is
identically zero, so the projected, masked, rescaled profile is zero
everywhere and has no local maxima. -/
theorem C7_flat_image (ext : Ext) (img : CImg) (c : ℕ × ℕ × ℕ)
    (huni : ∀ y x, img.pix y x = c)
    (hcl : ∀ (f : ℕ → ℕ → ℕ) (u : ℕ), (∀ y x, f y x = u) →
      ∃ u2, ∀ y x, ext.clahe f y x = u2) :
    pipeline_count ext img = 0 ∧
    profile_list ext img = List.replicate img.w 0 := by
  have hgray : ∀ y x, gray img y x = bgr2gray c := by
    intro y x
    unfold gray
    rw [huni]
  obtain ⟨u, hu⟩ := hcl (gray img) (bgr2gray c) hgray
  have henh : ∀ y x, enhanced ext img y x = u := hu
  have hblur : ∀ y x, blurred ext img y x = u :=
    blur3_of_pointwise_const henh
  have habs : ∀ y x, abs_sobel ext img y x = 0 :=
    sobel_of_pointwise_const hblur
  have hraw : ∀ i, raw_profile ext img i = 0 := by
    intro i
    unfold raw_profile
    rw [List.sum_eq_zero]
    · simp
    · intro a ha
      rcases List.mem_map.mp ha with ⟨y, _, rfl⟩
      rw [habs]
      simp
  have hmask : ∀ i, profile_masked ext img i = 0 := by
    intro i
    unfold profile_masked
    rw [hraw]
    simp
  have hlist : masked_list ext img = List.replicate img.w 0 := by
    rw [List.eq_replicate_iff]
    refine ⟨by simp [masked_list], ?_⟩
    intro b hb
    rcases List.mem_map.mp hb with ⟨i, _, rfl⟩
    exact hmask i
  have hprof : profile_list ext img = List.replicate img.w 0 := by
    unfold profile_list
    rw [hlist]
    unfold normalize_profile
    rw [List.map_replicate]
    have hsc : scale_sample (List.replicate img.w (0 : ℚ)) 0 = 0 :=
      scale_sample_zero (np_min_replicate_zero img.w)
    rw [hsc]
    simp
  refine ⟨?_, hprof⟩
  unfold pipeline_count pipeline_peaks
  rw [hprof, find_peaks_replicate]
  rfl

/-- Witness for C7 at the uniform mid-gray 8x8 image with identity
collaborators. -/
theorem C7_flat_image_witness :
    pipeline_count id_ext img_gray8 = 0 ∧
    profile_list id_ext img_gray8 = List.replicate img_gray8.w 0 :=
  C7_flat_image id_ext img_gray8 (100, 100, 100) (fun _ _ => rfl)
    (fun _ u hf => ⟨u, hf⟩)

/-! ### Claims C8 (decode error), C9 (annotation frame), C10 (band) -/

/-- Claim C8: `process` fails — with the decode error — exactly when the
input cannot be decoded, before any pipeline stage runs; on a successful
decode the full pipeline result triple is returned. -/
theorem C8_decode_error (ext : Ext) (input : ℕ) :
    (process ext input = Except.error ProcessError.imageDecodeError ↔
      ext.decode input = none) ∧
    (∀ img, ext.decode input = some img →
      process ext input = Except.ok (pipeline_count ext img,
        result_img ext img, profile_list ext img)) := by
  constructor
  · constructor
    · intro h
      cases hdec : ext.decode input with
      | none => rfl
      | some img =>
        unfold process at h
        rw [hdec] at h
        exact absurd h (by simp)
    · intro h
      unfold process
      rw [h]
  · intro img h
    unfold process
    rw [h]

/-- Witness for C8: the failing decoder raises the decode error; the
succeeding decoder yields the pipeline triple. -/
theorem C8_decode_error_witness :
    process id_ext 0 = Except.error ProcessError.imageDecodeError ∧
    process gray_ext 0 = Except.ok (pipeline_count gray_ext img_gray8,
      result_img gray_ext img_gray8, profile_list gray_ext img_gray8) :=
  ⟨(C8_decode_error id_ext 0).1.mpr rfl,
    (C8_decode_error gray_ext 0).2 img_gray8 rfl⟩

/-- Claim C9: the input image value is never written (the annotator draws
on `img.copy()`; the model is pure, and this theorem pins down the only
differences).  Outside the text strip (`cv2.putText` at origin (10, 30),
scale 1, thickness 2 touches only rows `y ≤ 40` — the stated contract),
the annotated copy equals the input except exactly at the peak columns,
which carry the full-height red (BGR `(0,0,255)`) marker. -/
theorem C9_annotation_frame (ext : Ext) (img : CImg)
    (htext : ∀ pix c y x, 40 < y → ext.putText pix c y x = pix y x) :
    (∀ y x, 40 < y → x ∉ pipeline_peaks ext img →
      result_img ext img y x = img.pix y x) ∧
    (∀ y x, 40 < y → x ∈ pipeline_peaks ext img →
      result_img ext img y x = (0, 0, 255)) := by
  constructor
  · intro y x hy hx
    unfold result_img
    rw [htext _ _ _ _ hy]
    unfold draw_lines
    rw [if_neg hx]
  · intro y x hy hx
    unfold result_img
    rw [htext _ _ _ _ hy]
    unfold draw_lines
    rw [if_pos hx]

/-- Witness for C9: with the no-op text overlay, a pixel below the text
strip in a non-peak column (column 0 is never a peak) is unchanged. -/
theorem C9_annotation_frame_witness :
    result_img id_ext img_dark 50 0 = img_dark.pix 50 0 :=
  (C9_annotation_frame id_ext img_dark (fun _ _ _ _ _ => rfl)).1 50 0
    (by omega)
    (fun h => by
      unfold pipeline_peaks at h
      exact absurd (find_peaks_bounds h).1 (by omega))

/-- Claim C10: the central horizontal band
`[H/2 - (H/3)/2, H/2 + (H/3)/2)` of a decoded image (`H ≥ 1`) is nonempty
exactly when `H ≥ 6`; for `1 ≤ H ≤ 5` it is empty, so the per-column mean
producing the raw profile averages zero rows — NaN in numpy (embedded here
as the junk value `0 / 0 = 0`) — although the image is not zero-size. -/
theorem C10_central_band (ext : Ext) (img : CImg) :
    (0 < (roi_rows img.h).length ↔ 6 ≤ img.h) ∧
    (img.h ≤ 5 → roi_rows img.h = [] ∧ ∀ i, raw_profile ext img i = 0) := by
  have hlen : (roi_rows img.h).length = roi_hi img.h - roi_lo img.h := by
    simp [roi_rows]
  constructor
  · rw [hlen]
    unfold roi_hi roi_lo
    omega
  · intro h5
    have hnil : roi_rows img.h = [] := by
      rw [← List.length_eq_zero, hlen]
      unfold roi_hi roi_lo
      omega
    refine ⟨hnil, fun i => ?_⟩
    unfold raw_profile
    rw [hnil]
    simp

/-- Witness for C10 at the 4x3 image: its band is empty and its raw
profile degenerates (height 3 ≤ 5), while the first conjunct instantiates
the emptiness criterion. -/
theorem C10_central_band_witness :
    (0 < (roi_rows img_short.h).length ↔ 6 ≤ img_short.h) ∧
    roi_rows img_short.h = [] ∧ raw_profile id_ext img_short 0 = 0 :=
  ⟨(C10_central_band id_ext img_short).1,
    ((C10_central_band id_ext img_short).2 (by decide)).1,
    ((C10_central_band id_ext img_short).2 (by decide)).2 0⟩

/-! ### Period estimation: claims C3 and C4

The two counterexample profiles below repeat the period-6 pattern
`[255, 191, 64, 0, 64, 191]`.  Opposite samples of the pattern add up to
255, so the mean-removed signal is 3-antiperiodic and its spectrum is
supported on the ODD multiples of `n / 6` alone: among the strictly
positive frequency bins exactly one carries energy (a dominant magnitude,
`11 * 382` for `n = 66`), so the `np.argmax` of the floating-point
pipeline selects the same bin as the exact model — no tie-breaking between
equal magnitudes is involved. -/

theorem np_argmax_aux_le {c : ℝ} :
    ∀ (l : List ℝ) (i best : ℕ), (∀ u ∈ l, u ≤ c) →
      np_argmax_aux l i best c = best := by
  intro l
  induction l with
  | nil => intro i best _; rfl
  | cons v t ih =>
    intro i best hle
    unfold np_argmax_aux
    rw [if_neg (not_lt.mpr (hle v (by simp)))]
    exact ih _ _ (fun u hu => hle u (by simp [hu]))

/-- One period of the bar pattern; opposite samples add to 255. -/
def bar_pattern (r : ℕ) : ℕ :=
  [255, 191, 64, 0, 64, 191].getD (r % 6) 0

/-- A profile of `n / 6` copies of the bar pattern (used with `6 ∣ n`). -/
def bar_profile (n : ℕ) : List ℕ :=
  (List.range n).map bar_pattern

theorem bar_profile_length (n : ℕ) : (bar_profile n).length = n := by
  simp [bar_profile]

theorem bar_profile_getD {n j : ℕ} (hj : j < n) :
    (bar_profile n).getD j 0 = bar_pattern j := by
  unfold bar_profile
  rw [List.getD_eq_getElem?_getD, List.getElem?_map, List.getElem?_range hj]
  rfl

theorem bar_pattern_add_three (x : ℕ) :
    bar_pattern x + bar_pattern (x + 3) = 255 := by
  unfold bar_pattern
  have h3 : (x + 3) % 6 = (x % 6 + 3) % 6 := by omega
  rw [h3]
  have h6 : x % 6 = 0 ∨ x % 6 = 1 ∨ x % 6 = 2 ∨ x % 6 = 3 ∨ x % 6 = 4 ∨
      x % 6 = 5 := by omega
  rcases h6 with h | h | h | h | h | h <;> rw [h] <;> decide

/-- The mean-removed bar signal as a complex value. -/
noncomputable def bar_dev (x : ℕ) : ℂ := (bar_pattern x : ℂ) - 255 / 2

theorem bar_dev_add_three (x : ℕ) : bar_dev (x + 3) = -bar_dev x := by
  have hc : ((bar_pattern x : ℕ) : ℂ) + ((bar_pattern (x + 3) : ℕ) : ℂ) = 255 := by
    exact_mod_cast congrArg (fun t : ℕ => (t : ℂ)) (bar_pattern_add_three x)
  unfold bar_dev
  linear_combination hc

theorem bar_dev_shift (q r : ℕ) :
    bar_dev (3 * q + r) = (-1) ^ q * bar_dev r := by
  induction q with
  | zero => simp
  | succ q ih =>
    have h : 3 * (q + 1) + r = 3 * q + r + 3 := by ring
    rw [h, bar_dev_add_three, ih]
    ring

theorem sum_range_add_split {M : Type} [AddCommMonoid M] (f : ℕ → M) (a : ℕ) :
    ∀ b, ∑ j ∈ Finset.range (a + b), f j =
      (∑ j ∈ Finset.range a, f j) + ∑ r ∈ Finset.range b, f (a + r) := by
  intro b
  induction b with
  | zero => simp
  | succ b ih =>
    rw [show a + (b + 1) = (a + b) + 1 from rfl, Finset.sum_range_succ, ih,
      Finset.sum_range_succ, add_assoc]

theorem sum_range_mul_split {M : Type} [AddCommMonoid M] (f : ℕ → M) (n : ℕ) :
    ∀ m, ∑ j ∈ Finset.range (m * n), f j =
      ∑ q ∈ Finset.range m, ∑ r ∈ Finset.range n, f (n * q + r) := by
  intro m
  induction m with
  | zero => simp
  | succ m ih =>
    rw [Nat.succ_mul, sum_range_add_split, ih, Finset.sum_range_succ]
    congr 1
    apply Finset.sum_congr rfl
    intro r _
    congr 1
    ring

/-- Spectrum support of the bar profile: DFT bin `k` of the mean-removed
bar signal vanishes whenever `6 k` is not an odd multiple of `n`: the bin
is a geometric series of the ratio `-exp(-2 pi i (3 k) / n)`, whose
`n/3`-th power is 1 and which differs from 1. -/
theorem dft_mag_bar_zero {n k : ℕ} (hpos : 0 < n) (hn6 : n % 6 = 0)
    (hmean : profile_mean (bar_profile n) = 255 / 2)
    (hbad : ∀ c : ℕ, 6 * k ≠ n * (2 * c + 1)) :
    dft_mag (bar_profile n) k = 0 := by
  have hn0 : (n : ℂ) ≠ 0 := Nat.cast_ne_zero.mpr hpos.ne'
  unfold dft_mag
  rw [hmean, bar_profile_length]
  set r : ℂ := Complex.exp (-(2 * Real.pi * Complex.I * k) / n) with hr
  have hterm : ∀ j ∈ Finset.range n,
      ((((bar_profile n).getD j 0 : ℚ) : ℂ) - (((255 : ℚ) / 2 : ℚ) : ℂ)) *
          Complex.exp (-(2 * Real.pi * Complex.I * j * k) / n) =
        bar_dev j * r ^ j := by
    intro j hj
    have hjn : j < n := Finset.mem_range.mp hj
    rw [bar_profile_getD hjn]
    have hexp : Complex.exp (-(2 * Real.pi * Complex.I * j * k) / n) = r ^ j := by
      rw [hr, ← Complex.exp_nat_mul]
      congr 1
      ring
    rw [hexp]
    unfold bar_dev
    push_cast
    ring
  rw [Finset.sum_congr rfl hterm]
  rw [show Finset.range n = Finset.range ((n / 3) * 3) from by
    congr 1
    omega]
  rw [sum_range_mul_split]
  have hinner : ∀ q ∈ Finset.range (n / 3),
      (∑ j ∈ Finset.range 3, bar_dev (3 * q + j) * r ^ (3 * q + j)) =
        (-(r ^ 3)) ^ q * ∑ j ∈ Finset.range 3, bar_dev j * r ^ j := by
    intro q _
    rw [Finset.mul_sum]
    apply Finset.sum_congr rfl
    intro j _
    rw [bar_dev_shift, pow_add, pow_mul, neg_pow]
    ring
  rw [Finset.sum_congr rfl hinner, ← Finset.sum_mul]
  have hrn : r ^ n = 1 := by
    rw [hr, ← Complex.exp_nat_mul]
    have harg : (n : ℂ) * (-(2 * Real.pi * Complex.I * k) / n) =
        ((-(k : ℤ) : ℤ) : ℂ) * (2 * (Real.pi : ℂ) * Complex.I) := by
      field_simp
      ring
    rw [harg]
    exact Complex.exp_int_mul_two_pi_mul_I (-(k : ℤ))
  have heven : Even (n / 3) := ⟨n / 6, by omega⟩
  have hun : (-(r ^ 3)) ^ (n / 3) = 1 := by
    rw [neg_pow, heven.neg_one_pow, one_mul, ← pow_mul,
      show 3 * (n / 3) = n from by omega, hrn]
  have hune : (-(r ^ 3)) ≠ 1 := by
    intro hequ
    have hr3 : r ^ 3 = -1 := by
      have := congrArg Neg.neg hequ
      simpa using this
    have hr6 : Complex.exp ((6 : ℕ) * (-(2 * Real.pi * Complex.I * k) / n)) = 1 := by
      rw [Complex.exp_nat_mul, ← hr,
        show ((6 : ℕ) : ℕ) = 3 * 2 from rfl, pow_mul, hr3]
      norm_num
    rcases Complex.exp_eq_one_iff.mp hr6 with ⟨m, hm⟩
    have hm2 : (6 : ℂ) * (-(2 * Real.pi * Complex.I * k)) =
        (m : ℂ) * (2 * Real.pi * Complex.I) * n := by
      field_simp at hm
      linear_combination hm
    have hpi : (Real.pi : ℂ) ≠ 0 := by
      exact_mod_cast Real.pi_ne_zero
    have h2pi : (2 * (Real.pi : ℂ) * Complex.I) ≠ 0 := by
      intro h
      rcases mul_eq_zero.mp h with h | h
      · rcases mul_eq_zero.mp h with h | h
        · norm_num at h
        · exact hpi h
      · exact Complex.I_ne_zero h
    have hcancel : (2 * (Real.pi : ℂ) * Complex.I) * (-(6 * (k : ℂ))) =
        (2 * (Real.pi : ℂ) * Complex.I) * ((m : ℂ) * (n : ℂ)) := by
      linear_combination hm2
    have hint : (-(6 * (k : ℤ)) : ℂ) = ((m * n : ℤ) : ℂ) := by
      have := mul_left_cancel₀ h2pi hcancel
      push_cast
      push_cast at this
      exact this
    have hintz : -(6 * (k : ℤ)) = m * n := by exact_mod_cast hint
    rcases Int.even_or_odd (-m) with ⟨f, hf⟩ | ⟨f, hf⟩
    · -- even multiplier: the ratio cubed is 1, not -1
      have h3k : (3 * (k : ℤ)) = f * n := by
        have hmf : m = -(f + f) := by omega
        rw [hmf] at hintz
        linarith
      have hr3' : r ^ 3 = 1 := by
        rw [hr, ← Complex.exp_nat_mul]
        have hc : ((3 * (k : ℤ) : ℤ) : ℂ) = ((f * n : ℤ) : ℂ) := by
          exact_mod_cast h3k
        push_cast at hc
        have harg : ((3 : ℕ) : ℂ) * (-(2 * Real.pi * Complex.I * k) / n) =
            ((-f : ℤ) : ℂ) * (2 * (Real.pi : ℂ) * Complex.I) := by
          field_simp
          linear_combination (2 * (Real.pi : ℂ) * Complex.I) * hc
        rw [harg]
        exact Complex.exp_int_mul_two_pi_mul_I (-f)
      rw [hr3'] at hr3
      norm_num at hr3
    · -- odd multiplier: 6 k would be an odd multiple of n
      have hfnn : 0 ≤ f := by
        by_contra hneg
        push_neg at hneg
        have h1 : -m ≤ -1 := by omega
        have h2 : (-m) * (n : ℤ) ≤ (-1) * n := by
          apply mul_le_mul_of_nonneg_right h1 (by positivity)
        have h3 : (-m) * (n : ℤ) = 6 * k := by linarith
        have h4 : (0 : ℤ) ≤ 6 * k := by positivity
        have h5 : (0 : ℤ) < n := by exact_mod_cast hpos
        omega
      have hcast : (6 * k : ℤ) = (n : ℤ) * (2 * f + 1) := by
        have hmf : m = -(2 * f + 1) := by omega
        rw [hmf] at hintz
        linarith
      have hfz : (f.toNat : ℤ) = f := Int.toNat_of_nonneg hfnn
      have hnateq : 6 * k = n * (2 * f.toNat + 1) := by
        have hz : ((n * (2 * f.toNat + 1) : ℕ) : ℤ) = (n : ℤ) * (2 * f + 1) := by
          push_cast [hfz]
          ring
        have hzz : ((6 * k : ℕ) : ℤ) = ((n * (2 * f.toNat + 1) : ℕ) : ℤ) := by
          rw [hz]
          exact_mod_cast hcast
        exact_mod_cast hzz
      exact hbad f.toNat hnateq
  rw [geom_sum_eq hune (n / 3), hun]
  simp

theorem dft_mag_nonneg (p : List ℕ) (k : ℕ) : 0 ≤ dft_mag p k := by
  unfold dft_mag
  exact AbsoluteValue.nonneg _ _

theorem np_argmax_cons_zero {a : ℝ} (ha : 0 ≤ a) (m : ℕ) :
    np_argmax (a :: List.replicate m 0) = 0 := by
  unfold np_argmax
  exact np_argmax_aux_le _ _ _
    (fun u hu => by rw [List.eq_of_mem_replicate hu]; exact ha)

/-- The surviving bins for `W = 66` are `11 .. 32`. -/
theorem valid_ks_66 : valid_ks 66 = 11 :: (List.range 21).map (· + 12) := by
  decide

/-- Every surviving bin past the first carries zero magnitude for the
length-66 bar profile. -/
theorem tail_mags_bar66 :
    ((List.range 21).map (· + 12)).map (dft_mag (bar_profile 66)) =
      List.replicate 21 0 := by
  rw [List.eq_replicate_iff]
  refine ⟨by simp, ?_⟩
  intro b hb
  rcases List.mem_map.mp hb with ⟨k, hk, rfl⟩
  rcases List.mem_map.mp hk with ⟨i, hi, rfl⟩
  have hi21 : i < 21 := List.mem_range.mp hi
  apply dft_mag_bar_zero (by norm_num) (by norm_num) (by decide)
  intro c
  omega

/-- The source estimator returns exactly 6 on the length-66 bar profile:
bin 11 is the only surviving bin with energy, `np.argmax` selects it, and
`1 / (11 / 66) = 6`. -/
theorem estimated_period_bar66 : estimated_period (bar_profile 66) = 6 := by
  unfold estimated_period
  rw [bar_profile_length]
  rw [if_pos (by decide : 0 < (pos_ks 66).length)]
  rw [if_pos (by decide : (valid_ks 66).length ≠ 0)]
  rw [valid_ks_66, List.map_cons, tail_mags_bar66,
    np_argmax_cons_zero (dft_mag_nonneg _ _)]
  norm_num [List.getD]

/-- Modelled from the spec: claim C3's formula
`minDistance = clamp(round(estimate * 0.6), 3, 50)` (rounding to nearest,
unlike the `int()` truncation the source performs; `round` is
round-half-up, which agrees with every rounding convention away from exact
halves, in particular at `3.6`). -/
def min_distance_round_spec (est : ℚ) : ℕ :=
  max 3 (min 50 (round (est * (3 / 5))).toNat)

/-- The clamp formula with truncation, as the amended claim C3 words it. -/
def min_distance_trunc_spec (est : ℚ) : ℕ :=
  max 3 (min 50 (py_int (est * (3 / 5))).toNat)

/-- Claim C3 (amended): the peak spacing is
`minDistance = clamp(trunc(estimate * 0.6), 3, 50)` — `int()` truncates,
it does not round — and in particular `minDistance` always lies in
`[3, 50]`, whatever the raw estimate (near zero, huge, even negative). -/
theorem C3_min_distance_clamp (est : ℚ) :
    min_distance_of est = min_distance_trunc_spec est ∧
    3 ≤ min_distance_of est ∧ min_distance_of est ≤ 50 := by
  unfold min_distance_of min_distance_trunc_spec
  omega

/-- Claim C3 counterexample: the length-66 bar profile makes the
PeriodEstimator produce exactly 6 (its only energetic surviving bin is
`k = 11`), on which the source computes
`min_distance = min(max(3, int(6 * 0.6)), 50) = 3` while the claim's
formula `clamp(round(6 * 0.6), 3, 50)` gives 4. -/
theorem C3_round_counterexample :
    estimated_period (bar_profile 66) = 6 ∧
    min_distance_of (estimated_period (bar_profile 66)) = 3 ∧
    min_distance_round_spec (estimated_period (bar_profile 66)) = 4 := by
  refine ⟨estimated_period_bar66, ?_, ?_⟩
  · rw [estimated_period_bar66]
    decide
  · rw [estimated_period_bar66]
    decide

end WaferCounterModel
